/-
Verification of the repository's core components against its specification:
the Internal Reference Cleaner (internalrefs), the Object Pool Manager
(objectpool), the Reference Transaction Updater contract, and the Merge
Engine.  Pure shallow embedding: each Go function is translated into an
executable Lean definition; subprocess output (git fsck, the object-map
reader) is modelled as the list of lines the scanner would yield.
-/
import Mathlib

set_option maxHeartbeats 1000000

/-! ## Reference Transaction Updater

Modelled from the spec: the `updateref.Updater` source is not part of the
covered files, only its callers are.  Per spec section 4.2 it stages named
reference operations without I/O and `Commit` applies all staged operations
atomically as one batch; `WithDisabledTransactions` disables the voting hook
for pool-internal maintenance. -/

/-- A staged reference operation: a create with a target object id, or a
deletion of a named reference. -/
inductive RefOp where
  | create (name : String) (oid : String)
  | del (name : String)
deriving DecidableEq, Repr

/-- Modelled from the spec: the Reference Transaction Updater.  `staged`
records the pending operations in staging order; `committed = none` means no
batch has been applied to the repository, `committed = some ops` means the
batch `ops` was applied atomically by `Commit`. -/
structure Updater where
  transactionsDisabled : Bool
  staged : List RefOp
  committed : Option (List RefOp)
deriving DecidableEq, Repr

/-- Modelled from the spec: `updateref.New`, optionally with
`WithDisabledTransactions`.  A fresh updater has nothing staged and nothing
committed. -/
def Updater.new (disabled : Bool) : Updater :=
  { transactionsDisabled := disabled, staged := [], committed := none }

/-- Modelled from the spec: `Updater.Delete` stages a reference deletion
(no I/O, nothing applied yet). -/
def Updater.del (u : Updater) (name : String) : Updater :=
  { u with staged := u.staged ++ [RefOp.del name] }

/-- Modelled from the spec: `Updater.Create` stages a reference creation
(no I/O, nothing applied yet). -/
def Updater.create (u : Updater) (name : String) (oid : String) : Updater :=
  { u with staged := u.staged ++ [RefOp.create name oid] }

/-- Modelled from the spec: `Updater.Commit` applies every staged operation
as one atomic batch. -/
def Updater.commit (u : Updater) : Updater :=
  { u with committed := some u.staged }

/-! ## Internal Reference Cleaner (package internalrefs)

Embedded from the source: `NewCleaner`, `ApplyObjectMap`, `processEntry`.
The `io.Reader` consumed by the `bufio.Scanner` is modelled as the list of
lines the scanner yields. -/

/-- Splitting a character list at every space (the behaviour of Go
`strings.Split (s, " ")` on the characters of `s`). -/
def splitOnSpace : List Char → List (List Char)
  | [] => [[]]
  | c :: cs =>
    let r := splitOnSpace cs
    if c = ' ' then [] :: r
    else (c :: r.headD []) :: r.tail

/-- Joining character-list pieces back with single spaces. -/
def joinSpace : List (List Char) → List Char
  | [] => []
  | [x] => x
  | x :: y :: xs => x ++ ' ' :: joinSpace (y :: xs)

/-- Go `strings.SplitN (s, " ", n)` for `n > 0`: at most `n` pieces, the
last piece holds the unsplit remainder. -/
def goSplitN (s : String) (n : Nat) : List String :=
  let parts := splitOnSpace s.data
  let regrouped :=
    if parts.length ≤ n then parts
    else parts.take (n - 1) ++ [joinSpace (parts.drop (n - 1))]
  regrouped.map (fun cs => String.mk cs)

/-- The literal filter-repo commit-map header recognised by `ApplyObjectMap`
(copied byte for byte from the source). -/
def filterRepoCommitMapHeader : String :=
  "old                                      new"

/-- The callback type `ForEachFunc`: called with the old OID, the new OID and
whether the old OID has matching internal references; returning an error
stops the cleaner.  Errors are modelled as strings. -/
def ForEachFunc : Type :=
  String → String → Bool → Except String Unit

/-- A recorded invocation of the `ForEachFunc` callback. -/
structure ForEachCall where
  oldOid : String
  newOid : String
  isInternalRef : Bool
deriving DecidableEq, Repr

/-- The cleaner's lookup table: OID to the ordered list of internal reference
names pointing at it (`buildLookupTable` output). -/
def RefTable : Type :=
  List (String × List String)

/-- Lookup in the cleaner's table, Go `refs, isPresent := c.table[oldSHA]`. -/
def RefTable.findRefs (t : RefTable) (oid : String) : Option (List String) :=
  (t.find? (fun p => p.1 = oid)).map (fun p => p.2)

/-- The state threaded through one `ApplyObjectMap` run: the updater plus the
trace of callback invocations made so far. -/
structure CleanState where
  updater : Updater
  calls : List ForEachCall
deriving DecidableEq, Repr

/-- Errors of `ApplyObjectMap`: `ErrInvalidObjectMap` carrying the line
counter value, or a propagated `ForEachFunc` error. -/
inductive CleanError where
  | invalidObjectMap (line : Nat)
  | forEachFailed (e : String)
deriving DecidableEq, Repr

/-- The error text of `ErrInvalidObjectMap`, Go
`fmt.Errorf ("object map invalid at line %d", i)`. -/
def CleanError.message : CleanError → String
  | .invalidObjectMap i => "object map invalid at line " ++ toString i
  | .forEachFailed e => e

/-- Outcome of an `ApplyObjectMap` run: the final state and `none` for
success or the returned error. -/
structure CleanOutcome where
  state : CleanState
  err : Option CleanError
deriving DecidableEq, Repr

/-- Embedded from the source: `Cleaner.processEntry`.  Looks up the old SHA
in the table, invokes the callback first (recording the call), then stages a
deletion for every matching reference; a callback error aborts with the
state as left behind (call recorded, nothing staged for this entry). -/
def processEntry (forEach : Option ForEachFunc) (table : RefTable)
    (oldSHA newSHA : String) (st : CleanState) :
    Except (String × CleanState) CleanState :=
  let refsOpt := table.findRefs oldSHA
  let isPresent := refsOpt.isSome
  let refs := refsOpt.getD []
  let stage := fun (s : CleanState) =>
    if isPresent then
      { s with updater := refs.foldl (fun u r => u.del r) s.updater }
    else s
  match forEach with
  | none => .ok (stage st)
  | some f =>
    let st1 := { st with calls := st.calls ++ [⟨oldSHA, newSHA, isPresent⟩] }
    match f oldSHA newSHA isPresent with
    | .error e => .error (e, st1)
    | .ok _ => .ok (stage st1)

/-- Embedded from the source: the scanning loop of `ApplyObjectMap`.  `i` is
the line counter (starts at 0, incremented every iteration, headers and
no-ops included).  On a malformed record the loop returns
`ErrInvalidObjectMap` with the current counter; after the last line the
updater commits all staged deletions as one batch. -/
def applyLines (forEach : Option ForEachFunc) (table : RefTable) :
    List String → Nat → CleanState → CleanOutcome
  | [], _, st =>
    { state := { st with updater := st.updater.commit }, err := none }
  | line :: rest, i, st =>
    if line = filterRepoCommitMapHeader then
      applyLines forEach table rest (i + 1) st
    else
      match goSplitN line 2 with
      | [a, b] =>
        if a.length = 40 ∧ b.length = 40 then
          if a = b then
            applyLines forEach table rest (i + 1) st
          else
            match processEntry forEach table a b st with
            | .ok st2 => applyLines forEach table rest (i + 1) st2
            | .error (e, st2) =>
              { state := st2, err := some (.forEachFailed e) }
        else { state := st, err := some (.invalidObjectMap i) }
      | _ => { state := st, err := some (.invalidObjectMap i) }

/-- Embedded from the source: `Cleaner.ApplyObjectMap` on a fresh cleaner
(fresh updater, empty call trace), processing the given object-map lines. -/
def ApplyObjectMap (forEach : Option ForEachFunc) (table : RefTable)
    (lines : List String) : CleanOutcome :=
  applyLines forEach table lines 0
    { updater := Updater.new false, calls := [] }

/-! ### Spec-side readings of the object map

Second definitions following the words of the spec (section 4.4), used to
state the refinement claims about `ApplyObjectMap`: which lines are
"processed", which callback invocations a run makes, and which deletions it
stages. -/

/-- Spec-side: the `(oldOID, newOID)` entries of the processed object-map
lines, in order.  The header line and `old == new` no-ops are skipped;
the list stops at the first malformed line. -/
def specEntries : List String → List (String × String)
  | [] => []
  | line :: rest =>
    if line = filterRepoCommitMapHeader then specEntries rest
    else
      match goSplitN line 2 with
      | [a, b] =>
        if a.length = 40 ∧ b.length = 40 then
          if a = b then specEntries rest else (a, b) :: specEntries rest
        else []
      | _ => []

/-- Spec-side: running the callback over the processed entries.  Returns the
callback invocations made, the reference deletions staged (only for entries
whose callback succeeded, i.e. deletions are staged after the callback), and
the first callback error if any. -/
def specRun (f : ForEachFunc) (table : RefTable) :
    List (String × String) → List ForEachCall × List RefOp × Option String
  | [] => ([], [], none)
  | (a, b) :: rest =>
    let refsOpt := table.findRefs a
    let p := refsOpt.isSome
    match f a b p with
    | .error e => ([⟨a, b, p⟩], [], some e)
    | .ok _ =>
      let r := specRun f table rest
      (⟨a, b, p⟩ :: r.1, (refsOpt.getD []).map RefOp.del ++ r.2.1, r.2.2)

/-- A line that `ApplyObjectMap` accepts without returning
`ErrInvalidObjectMap`: the literal header, or a record of two 40-character
OIDs. -/
def wellFormedLine (line : String) : Bool :=
  line = filterRepoCommitMapHeader ||
    match goSplitN line 2 with
    | [a, b] => a.length = 40 && b.length = 40
    | _ => false

/-! ## Object Pool Manager (package objectpool)

Embedded from the source: `rescueDanglingObjects`, `repackPool` and the
error plumbing of `FetchFromOrigin`.  The output stream of `git fsck
--connectivity-only --dangling` is modelled as its list of lines; each git
invocation's outcome is supplied by an environment. -/

/-- The pool's private fetch namespace, `sourceRefNamespace` in the source. -/
def sourceRefNamespace : String := "refs/remotes/origin"

/-- The rescue namespace, `danglingObjectNamespace` in the source. -/
def danglingObjectNamespace : String := "refs/dangling/"

/-- Embedded from the source: parsing of one `git fsck` output line inside
`rescueDanglingObjects`.  Go `strings.SplitN (text, " ", 3)`: lines that do
not split into exactly three fields, or whose first field is not
`"dangling"`, are skipped; otherwise the third field is the object id. -/
def parseFsckLine (line : String) : Option String :=
  match goSplitN line 3 with
  | [a, _, c] => if a = "dangling" then some c else none
  | _ => none

/-- The object ids reported dangling by the fsck scan, in output order. -/
def danglingOids (fsckLines : List String) : List String :=
  fsckLines.filterMap parseFsckLine

/-- Embedded from the source: the scanning loop of `rescueDanglingObjects`,
staging `Create (refs/dangling/<oid>, <oid>)` for every dangling object. -/
def rescueStage : List String → Updater → Updater
  | [], u => u
  | line :: rest, u =>
    match parseFsckLine line with
    | some oid => rescueStage rest (u.create (danglingObjectNamespace ++ oid) oid)
    | none => rescueStage rest u

/-- Embedded from the source: `rescueDanglingObjects`.  A fresh updater is
created with `WithDisabledTransactions`, one create is staged per dangling
object, and the whole batch is committed once at the end. -/
def rescueDanglingObjects (fsckLines : List String) : Updater :=
  (rescueStage fsckLines (Updater.new true)).commit

/-- The git invocations `FetchFromOrigin` makes after the housekeeping
steps, in source order. -/
inductive GitCmd where
  | fetch
  | fsck
  | packRefs
  | repack
deriving DecidableEq, Repr

/-- Outcome of one git invocation: `exitErr = some e` models a non-zero
exit with error text `e`; `stderr` is what the process wrote to standard
error; `output` its standard output lines (used by fsck). -/
structure ExecResult where
  exitErr : Option String
  stderr : String
  output : List String
deriving Repr

/-- The environment supplying each git invocation's outcome. -/
def PoolEnv : Type :=
  GitCmd → ExecResult

/-- Errors surfaced by `FetchFromOrigin`.  `fetchFailed` is the wrapped
fetch error (`helper.ErrInternalf ("fetch into object pool: %w, stderr: %q",
err, stderr)`); `fsckFailed` the wrapped `fmt.Errorf ("git fsck: %v", err)`;
`gitFailed` an error returned verbatim from `ExecAndWait` (pack-refs and
repack are not wrapped and their standard error is not captured). -/
inductive PoolError where
  | fetchFailed (err : String) (stderr : String)
  | fsckFailed (err : String)
  | gitFailed (err : String)
deriving DecidableEq, Repr

/-- The error text seen by the caller of `FetchFromOrigin`. -/
def PoolError.message : PoolError → String
  | .fetchFailed e s => "fetch into object pool: " ++ e ++ ", stderr: \"" ++ s ++ "\""
  | .fsckFailed e => "git fsck: " ++ e
  | .gitFailed e => e

/-- Embedded from the source: the fetch / rescue / pack-refs / repack
sequence of `FetchFromOrigin` and `repackPool`, with each step's error
handling.  Returns the trace of git invocations actually run (each command
appears at most once: nothing is retried) together with either the final
updater of the rescue step or the first error. -/
def FetchFromOrigin (env : PoolEnv) : List GitCmd × Except PoolError Updater :=
  let fr := env .fetch
  match fr.exitErr with
  | some e => ([.fetch], .error (.fetchFailed e fr.stderr))
  | none =>
    let sr := env .fsck
    match sr.exitErr with
    | some e => ([.fetch, .fsck], .error (.fsckFailed e))
    | none =>
      let u := rescueDanglingObjects sr.output
      let pr := env .packRefs
      match pr.exitErr with
      | some e => ([.fetch, .fsck, .packRefs], .error (.gitFailed e))
      | none =>
        let rr := env .repack
        match rr.exitErr with
        | some e => ([.fetch, .fsck, .packRefs, .repack], .error (.gitFailed e))
        | none => ([.fetch, .fsck, .packRefs, .repack], .ok u)

/-! ## Merge Engine

Modelled from the spec: the merge implementation (gitaly-git2go `merge`
subcommand) is not part of the covered files; only its tests are.  The
model follows spec section 4.1 — parameter validation in a fixed order,
then opening the repository, then a tree-level three-way merge against a
merge base, then commit creation — and is checked below against the
outcomes fixed by `TestMerge_missingArguments`, `TestMerge_squash` and
`TestMerge_recursive`. -/

/-- File contents.  `lit` is a literal string; `tagged t i` stands for the
test files of the form `t ++ "-" ++ toString i ++ "\n"` (kept structured so
that distinct indices are distinct contents by construction). -/
inductive Content where
  | lit (s : String)
  | tagged (tag : String) (i : Nat)
deriving DecidableEq, Repr

/-- A tree: an ordered association list from path to file content. -/
abbrev GitTree : Type :=
  List (String × Content)

/-- The paths of a tree, in order. -/
def treeKeys (t : GitTree) : List String :=
  t.map (fun p => p.1)

/-- The content of a path in a tree (`none` when the path is absent). -/
def treeGet (t : GitTree) (k : String) : Option Content :=
  (t.find? (fun p => p.1 = k)).map (fun p => p.2)

/-- Modelled from the spec: the per-path three-way merge rule.  A side that
is unchanged against the base yields the other side; identical changes
agree; otherwise the path has an unresolved content conflict. -/
def mergeFile (b o th : Option Content) : Except Unit (Option Content) :=
  if o = b then .ok th
  else if th = b then .ok o
  else if o = th then .ok o
  else .error ()

/-- The ordered union of the three trees' paths: paths of the base, then
paths only `ours` adds, then paths only `theirs` adds. -/
def unionKeys (b o th : GitTree) : List String :=
  let kb := treeKeys b
  let ko := (treeKeys o).filter (fun k => !kb.contains k)
  let kt := (treeKeys th).filter (fun k => !(kb.contains k || ko.contains k))
  kb ++ ko ++ kt

/-- Whether a per-path merge is a conflict. -/
def isConflict (r : Except Unit (Option Content)) : Bool :=
  match r with
  | .error _ => true
  | .ok _ => false

/-- Whether the three-way merge of path `k` conflicts. -/
def conflictAt (b o th : GitTree) (k : String) : Bool :=
  isConflict (mergeFile (treeGet b k) (treeGet o k) (treeGet th k))

/-- The merged entry at path `k` (`none` when the merged content is absent
or the path conflicts). -/
def mergedEntry (b o th : GitTree) (k : String) : Option (String × Content) :=
  match mergeFile (treeGet b k) (treeGet o k) (treeGet th k) with
  | .ok (some c) => some (k, c)
  | _ => none

/-- Modelled from the spec: the tree-level three-way merge.  If any path
conflicts, the whole merge fails with every conflicting path (sorted and
deduplicated); otherwise the merged tree is returned. -/
def mergeTrees (b o th : GitTree) : Except (List String) GitTree :=
  let ks := unionKeys b o th
  let conflicts := ks.filter (conflictAt b o th)
  if conflicts.isEmpty then .ok (ks.filterMap (mergedEntry b o th))
  else .error ((conflicts.insertionSort (fun a b => a ≤ b)).dedup)

/-- The `MergeCommand` request.  Dates model Go `time.Time`: `0` is the zero
value (unset), as in the committer-date presence check. -/
structure MergeCommand where
  repository : String
  authorName : String
  authorMail : String
  authorDate : Nat
  message : String
  ours : String
  theirs : String
  committerName : String
  committerMail : String
  committerDate : Nat
  squash : Bool
deriving DecidableEq, Repr

/-- The all-empty command (Go zero value), the "no arguments" test case. -/
def MergeCommand.empty : MergeCommand :=
  { repository := "", authorName := "", authorMail := "", authorDate := 0,
    message := "", ours := "", theirs := "", committerName := "",
    committerMail := "", committerDate := 0, squash := false }

/-- Whether any committer field is set (name, mail, or a non-zero date). -/
def MergeCommand.anyCommitterSet (m : MergeCommand) : Bool :=
  m.committerName ≠ "" || m.committerMail ≠ "" || m.committerDate ≠ 0

/-- Modelled from the spec: the fixed-order parameter validation (section
4.1).  Returns the name of the first missing field, or `none` when the
command is valid: repository, author name, author mail, message, ours,
theirs, then — only when at least one committer field is set — committer
name, committer mail, committer date. -/
def MergeCommand.missingField (m : MergeCommand) : Option String :=
  if m.repository = "" then some "repository"
  else if m.authorName = "" then some "author name"
  else if m.authorMail = "" then some "author mail"
  else if m.message = "" then some "message"
  else if m.ours = "" then some "ours"
  else if m.theirs = "" then some "theirs"
  else if m.anyCommitterSet then
    if m.committerName = "" then some "committer name"
    else if m.committerMail = "" then some "committer mail"
    else if m.committerDate = 0 then some "committer date"
    else none
  else none

/-- Errors of the merge engine, mirroring the taxonomy of spec section 7. -/
inductive MergeError where
  | invalidParameters (field : String)
  | couldNotOpenRepository
  | badRevision (rev : String)
  | noMergeBase
  | conflict (conflictingFiles : List String)
deriving DecidableEq, Repr

/-- The error text seen by the caller, as fixed by the tests
(`merge: invalid parameters: missing <field>`,
`merge: could not open repository`). -/
def MergeError.message : MergeError → String
  | .invalidParameters f => "merge: invalid parameters: missing " ++ f
  | .couldNotOpenRepository => "merge: could not open repository"
  | .badRevision r => "merge: could not resolve revision " ++ r
  | .noMergeBase => "merge: no common ancestor"
  | .conflict fs => "merge: could not auto-merge due to conflicts in " ++ String.intercalate ", " fs

/-- A commit stored in a repository: its object id, parent ids and tree. -/
structure Commit where
  oid : String
  parents : List String
  tree : GitTree
deriving DecidableEq, Repr

/-- A repository: its list of commits.  Revisions are modelled as object
ids. -/
def Repo : Type :=
  List Commit

/-- Resolve a revision to a commit of the repository. -/
def Repo.resolve (r : Repo) (rev : String) : Option Commit :=
  r.find? (fun c => c.oid = rev)

/-- Parent ids of a commit (empty for unknown ids). -/
def Repo.parentsOf (r : Repo) (oid : String) : List String :=
  ((r.find? (fun c => c.oid = oid)).map (fun c => c.parents)).getD []

/-- Fuel-bounded ancestor closure: repeatedly append every frontier
element's parents.  The repository size bounds the needed fuel. -/
def ancestorClosure (r : Repo) : Nat → List String → List String
  | 0, acc => acc
  | fuel + 1, acc =>
    ancestorClosure r fuel ((acc ++ (acc.map (r.parentsOf)).flatten).dedup)

/-- All ancestors of a commit (itself included), in closure order. -/
def Repo.ancestors (r : Repo) (oid : String) : List String :=
  ancestorClosure r r.length [oid]

/-- Modelled from the spec: a single merge base — the first common ancestor
in closure order.  The bounded virtual-base recursion for criss-cross
histories is modelled separately below (`ccMergeAt`); for the claims about
validation, parents and trivial merges only some deterministic base choice
matters. -/
def Repo.mergeBase (r : Repo) (a b : String) : Option String :=
  (r.ancestors a).find? (fun x => (r.ancestors b).contains x)

/-- The commit object materialised by a successful merge. -/
structure NewCommit where
  tree : GitTree
  parents : List String
  authorName : String
  authorMail : String
  authorDate : Nat
  committerName : String
  committerMail : String
  committerDate : Nat
  message : String
deriving DecidableEq, Repr

/-- Rendering of a content value, for commit serialization. -/
def Content.render : Content → String
  | .lit s => s
  | .tagged t i => t ++ "-" ++ toString i ++ "\n"

/-- Modelled from the spec: the canonical serialization of the new commit
object.  The commit's object id is its content address; the model uses the
serialization itself as the id, so that equal metadata and trees give equal
ids and the id depends on nothing else. -/
def NewCommit.oid (c : NewCommit) : String :=
  "tree " ++ String.intercalate "," (c.tree.map (fun p => p.1 ++ "=" ++ p.2.render)) ++ "\n"
    ++ String.join (c.parents.map (fun p => "parent " ++ p ++ "\n"))
    ++ "author " ++ c.authorName ++ " <" ++ c.authorMail ++ "> " ++ toString c.authorDate ++ "\n"
    ++ "committer " ++ c.committerName ++ " <" ++ c.committerMail ++ "> " ++ toString c.committerDate ++ "\n"
    ++ "\n" ++ c.message

/-- Modelled from the spec: the commit a successful merge materialises.  Two
parents `ours, theirs` in that order, or exactly `ours` when squashing;
author taken verbatim; committer defaulting to the author when no committer
field is set. -/
def mergedCommitOf (cmd : MergeCommand) (oursOid theirsOid : String) (t : GitTree) : NewCommit :=
  { tree := t,
    parents := if cmd.squash then [oursOid] else [oursOid, theirsOid],
    authorName := cmd.authorName,
    authorMail := cmd.authorMail,
    authorDate := cmd.authorDate,
    committerName := if cmd.anyCommitterSet then cmd.committerName else cmd.authorName,
    committerMail := if cmd.anyCommitterSet then cmd.committerMail else cmd.authorMail,
    committerDate := if cmd.anyCommitterSet then cmd.committerDate else cmd.authorDate,
    message := cmd.message }

/-- The store of repositories reachable by path. -/
def RepoStore : Type :=
  List (String × Repo)

/-- Opening a repository by path. -/
def RepoStore.open (s : RepoStore) (path : String) : Option Repo :=
  (s.find? (fun p => p.1 = path)).map (fun p => p.2)

/-- Modelled from the spec: the merge engine, `Merge (ctx, repository,
MergeCommand)`.  Validation first (before any repository is opened), then
opening the repository, resolving both revisions, the three-way tree merge
against the merge base, and commit creation. -/
def Merge (store : RepoStore) (cmd : MergeCommand) : Except MergeError NewCommit :=
  match cmd.missingField with
  | some f => .error (.invalidParameters f)
  | none =>
    match store.open cmd.repository with
    | none => .error .couldNotOpenRepository
    | some repo =>
      match repo.resolve cmd.ours with
      | none => .error (.badRevision cmd.ours)
      | some oursCommit =>
        match repo.resolve cmd.theirs with
        | none => .error (.badRevision cmd.theirs)
        | some theirsCommit =>
          match (repo.mergeBase oursCommit.oid theirsCommit.oid).bind repo.resolve with
          | none => .error .noMergeBase
          | some baseCommit =>
            match mergeTrees baseCommit.tree oursCommit.tree theirsCommit.tree with
            | .error files => .error (.conflict files)
            | .ok t => .ok (mergedCommitOf cmd oursCommit.oid theirsCommit.oid t)

/-! ### Criss-cross histories and the recursion limit

Modelled from the spec: with multiple merge bases the engine recursively
merges pairs of candidate bases into virtual bases, bounded by a fixed
recursion limit; exceeding the limit forces it to pick one base arbitrarily.
The commit family below is the one `TestMerge_recursive` builds: `ours n`
and `theirs n` are the two heads after `n` criss-cross rounds over a common
root.  Each round costs two recursion levels, so a criss-cross history of
depth `MergeRecursionLimit / 2` exactly exhausts the budget (the test's
in-limit case) and any deeper history exceeds it. -/

/-- The recursion limit, `git2go.MergeRecursionLimit`. -/
def MergeRecursionLimit : Nat := 20

/-- The root commit's tree of the criss-cross family. -/
def ccBaseTree : GitTree :=
  [("base", .lit "base\n")]

/-- The tree of `ours n`: `ours` at generation `n`, `theirs` one behind. -/
def ccOursTree : Nat → GitTree
  | 0 => [("base", .lit "base\n"), ("ours", .tagged "ours" 0)]
  | n + 1 => [("base", .lit "base\n"), ("ours", .tagged "ours" (n + 1)),
              ("theirs", .tagged "theirs" n)]

/-- The tree of `theirs n`: `theirs` at generation `n`, `ours` one behind. -/
def ccTheirsTree : Nat → GitTree
  | 0 => [("base", .lit "base\n"), ("theirs", .tagged "theirs" 0)]
  | n + 1 => [("base", .lit "base\n"), ("ours", .tagged "ours" n),
              ("theirs", .tagged "theirs" (n + 1))]

/-- Modelled from the spec: the bounded recursive merge of `ours n` with
`theirs n`, carrying the recursion budget already consumed (`r`).  The two
merge bases of `ours (n+1)` and `theirs (n+1)` are `ours n` and `theirs n`;
while the budget allows, their recursive merge becomes the virtual base, and
once the limit would be exceeded the engine picks the first base (`ours n`)
arbitrarily.  The function is total: the merge always terminates. -/
def ccMergeAt (limit : Nat) : Nat → Nat → Except (List String) GitTree
  | 0, _ => mergeTrees ccBaseTree (ccOursTree 0) (ccTheirsTree 0)
  | n + 1, r =>
    if r + 2 ≤ limit then
      match ccMergeAt limit n (r + 2) with
      | .error cs => .error cs
      | .ok vb => mergeTrees vb (ccOursTree (n + 1)) (ccTheirsTree (n + 1))
    else
      mergeTrees (ccOursTree n) (ccOursTree (n + 1)) (ccTheirsTree (n + 1))

/-- The merge of the two heads of a depth-`n` criss-cross history, with the
engine's fixed recursion limit. -/
def ccMerge (n : Nat) : Except (List String) GitTree :=
  ccMergeAt MergeRecursionLimit n 0

/-! ## Helper lemmas -/

theorem foldl_del_updater (refs : List String) (u : Updater) :
    refs.foldl (fun u r => u.del r) u =
      { u with staged := u.staged ++ refs.map RefOp.del } := by
  induction refs generalizing u with
  | nil => simp
  | cons r rs ih => rw [List.foldl_cons, ih]; simp [Updater.del]

theorem processEntry_none_eq (table : RefTable) (a b : String) (st : CleanState) :
    processEntry none table a b st =
      .ok { st with updater := { st.updater with
        staged := st.updater.staged ++ ((table.findRefs a).getD []).map RefOp.del } } := by
  unfold processEntry
  cases hr : table.findRefs a with
  | none => simp [hr]
  | some refs => simp [hr, foldl_del_updater]

theorem processEntry_some_eq (f : ForEachFunc) (table : RefTable)
    (a b : String) (st : CleanState) :
    processEntry (some f) table a b st =
      match f a b (table.findRefs a).isSome with
      | .error e =>
        .error (e, { st with calls := st.calls ++ [⟨a, b, (table.findRefs a).isSome⟩] })
      | .ok _ =>
        .ok { st with
          calls := st.calls ++ [⟨a, b, (table.findRefs a).isSome⟩],
          updater := { st.updater with
            staged := st.updater.staged ++ ((table.findRefs a).getD []).map RefOp.del } } := by
  unfold processEntry
  cases hr : table.findRefs a with
  | none =>
    simp only [hr, Option.isSome_none, Option.getD_none, List.map_nil, List.append_nil]
    cases f a b false <;> simp
  | some refs =>
    simp only [hr, Option.isSome_some, Option.getD_some]
    cases f a b true <;> simp [foldl_del_updater]

theorem applyLines_commit_inv (fe : Option ForEachFunc) (table : RefTable) :
    ∀ (lines : List String) (i : Nat) (st : CleanState),
      st.updater.committed = none →
      (applyLines fe table lines i st).state.updater.committed =
        if (applyLines fe table lines i st).err.isSome then none
        else some (applyLines fe table lines i st).state.updater.staged := by
  intro lines
  induction lines with
  | nil =>
    intro i st h
    simp [applyLines, Updater.commit]
  | cons line rest ih =>
    intro i st h
    by_cases hh : line = filterRepoCommitMapHeader
    · rw [applyLines, if_pos hh]
      exact ih _ _ h
    · rw [applyLines, if_neg hh]
      cases hsp : goSplitN line 2 with
      | nil => simp [h]
      | cons a tl =>
        cases tl with
        | nil => simp [h]
        | cons b tl2 =>
          cases tl2 with
          | nil =>
            dsimp only
            by_cases hlen : a.length = 40 ∧ b.length = 40
            · rw [if_pos hlen]
              by_cases hab : a = b
              · rw [if_pos hab]; exact ih _ _ h
              · rw [if_neg hab]
                cases fe with
                | none =>
                  rw [processEntry_none_eq]
                  exact ih _ _ h
                | some f =>
                  rw [processEntry_some_eq]
                  cases hf : f a b (table.findRefs a).isSome with
                  | error e => simp [h]
                  | ok u => exact ih _ _ h
            · rw [if_neg hlen]; simp [h]
          | cons c tl3 => simp [h]

theorem applyLines_specRun (f : ForEachFunc) (table : RefTable) :
    ∀ (lines : List String) (i : Nat) (st : CleanState),
      (applyLines (some f) table lines i st).state.calls
          = st.calls ++ (specRun f table (specEntries lines)).1 ∧
      (applyLines (some f) table lines i st).state.updater.staged
          = st.updater.staged ++ (specRun f table (specEntries lines)).2.1 ∧
      ∀ e, (specRun f table (specEntries lines)).2.2 = some e →
        (applyLines (some f) table lines i st).err = some (.forEachFailed e) ∧
        (applyLines (some f) table lines i st).state.updater.committed
          = st.updater.committed := by
  intro lines
  induction lines with
  | nil =>
    intro i st
    simp [applyLines, specEntries, specRun, Updater.commit]
  | cons line rest ih =>
    intro i st
    by_cases hh : line = filterRepoCommitMapHeader
    · rw [applyLines, if_pos hh, specEntries, if_pos hh]
      exact ih _ _
    · rw [applyLines, if_neg hh, specEntries, if_neg hh]
      cases hsp : goSplitN line 2 with
      | nil => simp [specRun]
      | cons a tl =>
        cases tl with
        | nil => simp [specRun]
        | cons b tl2 =>
          cases tl2 with
          | nil =>
            dsimp only
            by_cases hlen : a.length = 40 ∧ b.length = 40
            · rw [if_pos hlen, if_pos hlen]
              by_cases hab : a = b
              · rw [if_pos hab, if_pos hab]
                exact ih _ _
              · rw [if_neg hab, if_neg hab, processEntry_some_eq]
                cases hf : f a b (table.findRefs a).isSome with
                | error e =>
                  simp [specRun, hf]
                | ok u =>
                  rw [specRun]
                  dsimp only
                  rw [hf]
                  refine ⟨?_, ?_, ?_⟩
                  · rw [(ih _ _).1]
                    simp
                  · rw [(ih _ _).2.1]
                    simp
                  · intro e he
                    dsimp only at he
                    exact (ih _ _).2.2 e he
            · rw [if_neg hlen, if_neg hlen]
              simp [specRun]
          | cons c tl3 => simp [specRun]

theorem processEntry_feOk (fe : Option ForEachFunc) (table : RefTable)
    (a b : String) (st : CleanState)
    (hfe : ∀ f, fe = some f → f a b (table.findRefs a).isSome = Except.ok ()) :
    ∃ st2, processEntry fe table a b st = .ok st2 := by
  cases hfe2 : fe with
  | none => exact ⟨_, processEntry_none_eq table a b st⟩
  | some f =>
    simp only [processEntry_some_eq, hfe f hfe2]
    exact ⟨_, rfl⟩

theorem applyLines_malformed (fe : Option ForEachFunc) (table : RefTable)
    (bad : String) (rest : List String)
    (hfe : ∀ f, fe = some f → ∀ a b p, f a b p = Except.ok ())
    (hbad : wellFormedLine bad = false) :
    ∀ (pre : List String) (i : Nat) (st : CleanState),
      (∀ l ∈ pre, wellFormedLine l = true) →
      (applyLines fe table (pre ++ bad :: rest) i st).err =
        some (.invalidObjectMap (i + pre.length)) := by
  intro pre
  induction pre with
  | nil =>
    intro i st _
    rw [List.nil_append]
    have hne : bad ≠ filterRepoCommitMapHeader := by
      intro hcontra
      rw [wellFormedLine, hcontra] at hbad
      simp at hbad
    rw [applyLines, if_neg hne]
    cases hsp : goSplitN bad 2 with
    | nil => simp
    | cons a tl =>
      cases tl with
      | nil => simp
      | cons b tl2 =>
        cases tl2 with
        | nil =>
          rw [wellFormedLine, hsp] at hbad
          simp only [Bool.or_eq_false_iff, decide_eq_false_iff_not] at hbad
          dsimp only
          rw [if_neg]
          · simp
          · simp only [Bool.and_eq_false_iff, decide_eq_false_iff_not] at hbad
            rcases hbad.2 with h1 | h2
            · exact fun hc => h1 hc.1
            · exact fun hc => h2 hc.2
        | cons c tl3 => simp
  | cons l pre2 ih =>
    intro i st hpre
    have hl : wellFormedLine l = true := hpre l (List.mem_cons_self l pre2)
    have hstep : i + 1 + pre2.length = i + (l :: pre2).length := by
      simp; omega
    rw [List.cons_append]
    by_cases hh : l = filterRepoCommitMapHeader
    · rw [applyLines, if_pos hh, ← hstep]
      exact ih _ _ (fun x hx => hpre x (List.mem_cons_of_mem l hx))
    · rw [applyLines, if_neg hh]
      rw [wellFormedLine] at hl
      simp only [Bool.or_eq_true, decide_eq_true_eq] at hl
      rcases hl with hl | hl
      · exact absurd hl hh
      · cases hsp : goSplitN l 2 with
        | nil => rw [hsp] at hl; simp at hl
        | cons a tl =>
          cases tl with
          | nil => rw [hsp] at hl; simp at hl
          | cons b tl2 =>
            cases tl2 with
            | nil =>
              rw [hsp] at hl
              simp only [Bool.and_eq_true, decide_eq_true_eq] at hl
              dsimp only
              rw [if_pos hl]
              by_cases hab : a = b
              · rw [if_pos hab, ← hstep]
                exact ih _ _ (fun x hx => hpre x (List.mem_cons_of_mem l hx))
              · rw [if_neg hab]
                obtain ⟨st2, hst2⟩ := processEntry_feOk fe table a b st
                  (fun g hg => hfe g hg a b (table.findRefs a).isSome)
                rw [hst2]
                dsimp only
                rw [← hstep]
                exact ih _ _ (fun x hx => hpre x (List.mem_cons_of_mem l hx))
            | cons c tl3 => rw [hsp] at hl; simp at hl

/-! ## Concrete fixtures used by witnesses -/

/-- A 40-character object id. -/
def oidA : String := "aaaaaaaaaaaaaaaaaaaaaaaaaaaaaaaaaaaaaaaa"

/-- A 40-character object id. -/
def oidB : String := "bbbbbbbbbbbbbbbbbbbbbbbbbbbbbbbbbbbbbbbb"

/-- A 40-character object id. -/
def oidC : String := "cccccccccccccccccccccccccccccccccccccccc"

/-- A valid object-map record rewriting oidA to oidB. -/
def lineAB : String := oidA ++ " " ++ oidB

/-- A valid object-map record rewriting oidC to oidB. -/
def lineCB : String := oidC ++ " " ++ oidB

/-- A lookup table with two internal refs on oidA and one on oidC. -/
def tableW : RefTable :=
  [(oidA, ["refs/keep-around/a", "refs/merge-requests/1/head"]), (oidC, ["refs/keep-around/c"])]

/-- A callback that fails on oidC and succeeds elsewhere. -/
def feWitness : ForEachFunc :=
  fun oldOid _ _ => if oldOid = oidC then .error "stop" else .ok ()

/-! ## Claims about the Internal Reference Cleaner -/

/-- C1: `ApplyObjectMap` is atomic.  Whenever any record of the object map
is invalid or the `ForEachFunc` callback returns an error at any line, the
run returns an error and the updater has committed nothing — zero staged
reference deletions are applied, even if valid records preceded the failing
line.  Only when the full map is consumed without error are all staged
deletions committed, as the single batch `some staged`. -/
theorem claim_C1_applyObjectMap_atomic (fe : Option ForEachFunc)
    (table : RefTable) (lines : List String) :
    (ApplyObjectMap fe table lines).state.updater.committed =
      if (ApplyObjectMap fe table lines).err.isSome then none
      else some (ApplyObjectMap fe table lines).state.updater.staged := by
  have h := applyLines_commit_inv fe table lines 0
    { updater := Updater.new false, calls := [] } rfl
  simpa [ApplyObjectMap] using h

/-- C4 counterexample: the claim says the "invalid object map" error reports
the 1-based line number of the offending record.  It does not: for a map
whose first line (1-based line number 1) is malformed, the error reports 0 —
the line counter starts at 0. -/
theorem claim_C4_counterexample :
    (ApplyObjectMap none [] ["zzz"]).err = some (.invalidObjectMap 0) ∧
    (ApplyObjectMap none [] ["zzz"]).err ≠ some (.invalidObjectMap 1) := by
  constructor
  · rfl
  · decide

/-- C4 (amended): for every object map containing a malformed record (wrong
field count or wrong-length OID), with well-formed records before it and a
callback (if any) that keeps succeeding, `ApplyObjectMap` fails with the
"object map invalid at line %d" error reporting the 0-based index of the
offending record — not the 1-based line number. -/
theorem claim_C4_invalid_line_number (fe : Option ForEachFunc) (table : RefTable)
    (pre : List String) (bad : String) (rest : List String)
    (hfe : ∀ f, fe = some f → ∀ a b p, f a b p = Except.ok ())
    (hpre : ∀ l ∈ pre, wellFormedLine l = true)
    (hbad : wellFormedLine bad = false) :
    (ApplyObjectMap fe table (pre ++ bad :: rest)).err =
      some (.invalidObjectMap pre.length) ∧
    CleanError.message (.invalidObjectMap pre.length) =
      "object map invalid at line " ++ toString pre.length := by
  constructor
  · have h := applyLines_malformed fe table bad rest hfe hbad pre 0
      { updater := Updater.new false, calls := [] } hpre
    simpa [ApplyObjectMap] using h
  · rfl

/-- C4 witness: the amended theorem applied at a concrete map whose second
line (0-based index 1) is malformed. -/
theorem claim_C4_witness :
    (ApplyObjectMap none [] ([lineAB] ++ "zzz" :: [])).err =
      some (.invalidObjectMap [lineAB].length) ∧
    CleanError.message (.invalidObjectMap [lineAB].length) =
      "object map invalid at line " ++ toString [lineAB].length :=
  claim_C4_invalid_line_number none [] [lineAB] "zzz" []
    (fun f h => Option.noConfusion h)
    (by decide)
    (by decide)

/-- C5: with a `ForEachFunc` supplied, the callback is invoked once for
every processed object-map line in order — including lines whose old OID has
no matching reference (`specRun` records such calls with
`isInternalRef = false`) — and deletions are staged only for entries whose
callback already succeeded (the staged list of `specRun`), i.e. the callback
runs before the deletion logic of its line.  If the callback returns an
error, processing stops: that error propagates as the run's result and no
deletion staged during the run is committed. -/
theorem claim_C5_forEach_callback (f : ForEachFunc) (table : RefTable)
    (lines : List String) :
    (ApplyObjectMap (some f) table lines).state.calls
        = (specRun f table (specEntries lines)).1 ∧
    (ApplyObjectMap (some f) table lines).state.updater.staged
        = (specRun f table (specEntries lines)).2.1 ∧
    ∀ e, (specRun f table (specEntries lines)).2.2 = some e →
      (ApplyObjectMap (some f) table lines).err = some (.forEachFailed e) ∧
      (ApplyObjectMap (some f) table lines).state.updater.committed = none := by
  have h := applyLines_specRun f table lines 0
    { updater := Updater.new false, calls := [] }
  refine ⟨?_, ?_, ?_⟩
  · simpa [ApplyObjectMap] using h.1
  · simpa [ApplyObjectMap] using h.2.1
  · intro e he
    have h2 := h.2.2 e he
    constructor
    · simpa [ApplyObjectMap] using h2.1
    · simpa [ApplyObjectMap, Updater.new] using h2.2

/-- C5 witness: the theorem applied to a concrete run in which the callback
fails on the second processed line (whose old OID is present in the table):
the error propagates and nothing is committed. -/
theorem claim_C5_witness :
    (ApplyObjectMap (some feWitness) tableW [lineAB, lineCB, lineAB]).err
        = some (.forEachFailed "stop") ∧
    (ApplyObjectMap (some feWitness) tableW [lineAB, lineCB, lineAB]).state.updater.committed
        = none :=
  (claim_C5_forEach_callback feWitness tableW [lineAB, lineCB, lineAB]).2.2
    "stop" (by decide)

/-- C10: `ApplyObjectMap` skips any line exactly equal to the literal
filter-repo commit-map header wherever it appears (the equation holds at
every position `i` and state `st`, hence for every occurrence), and the
skipped header line still advances the line counter feeding the
"object map invalid at line" error: concretely, with headers at indices 0
and 2 and a malformed record at index 3, the error reports 3. -/
theorem claim_C10_header_skipped :
    (∀ (fe : Option ForEachFunc) (table : RefTable) (rest : List String)
       (i : Nat) (st : CleanState),
      applyLines fe table (filterRepoCommitMapHeader :: rest) i st =
        applyLines fe table rest (i + 1) st) ∧
    (ApplyObjectMap none []
        [filterRepoCommitMapHeader, lineAB, filterRepoCommitMapHeader, "zzz"]).err
      = some (.invalidObjectMap 3) := by
  constructor
  · intro fe table rest i st
    rw [applyLines, if_pos rfl]
  · rfl

/-! ## Claims about the Object Pool Manager -/

theorem rescueStage_eq (lines : List String) :
    ∀ u, rescueStage lines u =
      { u with staged := u.staged ++ List.map (fun oid => RefOp.create (danglingObjectNamespace ++ oid) oid) (danglingOids lines) } := by
  induction lines with
  | nil => intro u; simp [rescueStage, danglingOids]
  | cons l rest ih =>
    intro u
    rw [rescueStage]
    cases hp : parseFsckLine l with
    | none => simp [danglingOids, List.filterMap_cons, hp, ih]
    | some oid => simp [danglingOids, List.filterMap_cons, hp, Updater.create, ih]

/-- C6: after the fetch, `rescueDanglingObjects` stages one reference
`refs/dangling/<oid>` per object the connectivity-only fsck scan reports
dangling, through a single Reference Transaction Updater created with
transactions disabled, and commits them as one batch.  Consequently, under
the modelled fsck contract — every object not reachable from any reference
is reported dangling — every object of the pool is either reachable or ends
up with a `refs/dangling/<oid>` reference in the committed batch. -/
theorem claim_C6_rescue_dangling (fsckLines : List String)
    (objects : List String) (reachable : String → Bool)
    (hfsck : ∀ o ∈ objects, reachable o = false → o ∈ danglingOids fsckLines) :
    (rescueDanglingObjects fsckLines).transactionsDisabled = true ∧
    (rescueDanglingObjects fsckLines).committed =
      some ((danglingOids fsckLines).map
        (fun oid => RefOp.create (danglingObjectNamespace ++ oid) oid)) ∧
    ∀ o ∈ objects, reachable o = true ∨
      RefOp.create (danglingObjectNamespace ++ o) o
        ∈ (rescueDanglingObjects fsckLines).committed.getD [] := by
  have h := rescueStage_eq fsckLines (Updater.new true)
  refine ⟨?_, ?_, ?_⟩
  · rw [rescueDanglingObjects, h]; rfl
  · rw [rescueDanglingObjects, h]
    simp [Updater.commit, Updater.new]
  · intro o ho
    cases hr : reachable o with
    | true => exact Or.inl rfl
    | false =>
      refine Or.inr ?_
      have hmem := hfsck o ho hr
      rw [rescueDanglingObjects, h]
      simp only [Updater.commit, Updater.new, List.nil_append, Option.getD_some]
      exact List.mem_map_of_mem _ hmem

/-- An fsck output containing two dangling reports, a non-dangling report
and an unparseable line; three pool objects of which one is reachable. -/
def fsckLinesW : List String :=
  ["dangling blob abcd", "dangling commit efgh", "connected commit wxyz", "garbage"]

/-- The objects of the pool in the C6 witness scenario. -/
def objectsW : List String := ["abcd", "efgh", "wxyz"]

/-- Reachability in the C6 witness scenario: only wxyz is reachable. -/
def reachableW : String → Bool := fun o => o = "wxyz"

/-- C6 witness: the theorem applied to the concrete fsck output. -/
theorem claim_C6_witness :
    (rescueDanglingObjects fsckLinesW).transactionsDisabled = true ∧
    (rescueDanglingObjects fsckLinesW).committed =
      some ((danglingOids fsckLinesW).map
        (fun oid => RefOp.create (danglingObjectNamespace ++ oid) oid)) ∧
    ∀ o ∈ objectsW, reachableW o = true ∨
      RefOp.create (danglingObjectNamespace ++ o) o
        ∈ (rescueDanglingObjects fsckLinesW).committed.getD [] :=
  claim_C6_rescue_dangling fsckLinesW objectsW reachableW (by decide)

/-- The environment in which every git invocation succeeds except the final
repack, which fails with error text and standard-error output. -/
def envRepackFail : PoolEnv :=
  fun c =>
    match c with
    | .repack => { exitErr := some "repack failed", stderr := "REPACK-STDERR", output := [] }
    | _ => { exitErr := none, stderr := "", output := [] }

/-- C7 counterexample: the claim says repack failures are returned wrapped
with the captured standard-error text.  They are not: when the repack step
fails, `FetchFromOrigin` returns the error verbatim — the caller-visible
message is exactly the repack error text and the process's standard error
("REPACK-STDERR") appears nowhere in it. -/
theorem claim_C7_counterexample :
    (FetchFromOrigin envRepackFail).2 = .error (.gitFailed "repack failed") ∧
    PoolError.message (.gitFailed "repack failed") = "repack failed" ∧
    ¬ "REPACK-STDERR".data <:+: "repack failed".data := by
  exact ⟨rfl, rfl, by decide⟩

/-- C7 (amended): fetch failures are returned wrapped with the captured
standard-error text of the failed git invocation; repack failures are
returned verbatim, unwrapped and without captured standard error; and
neither step is retried at this layer — every git invocation appears at
most once in the trace of any run. -/
theorem claim_C7_error_propagation (env : PoolEnv) :
    (∀ e, (env .fetch).exitErr = some e →
      (FetchFromOrigin env).2 = .error (.fetchFailed e (env .fetch).stderr) ∧
      PoolError.message (.fetchFailed e (env .fetch).stderr) =
        "fetch into object pool: " ++ e ++ ", stderr: \"" ++ (env .fetch).stderr ++ "\"") ∧
    (∀ e, (env .fetch).exitErr = none → (env .fsck).exitErr = none →
      (env .packRefs).exitErr = none → (env .repack).exitErr = some e →
      (FetchFromOrigin env).2 = .error (.gitFailed e)) ∧
    ((FetchFromOrigin env).1.count .fetch ≤ 1 ∧
      (FetchFromOrigin env).1.count .repack ≤ 1) := by
  refine ⟨?_, ?_, ?_⟩
  · intro e he
    rw [FetchFromOrigin]
    simp [he, PoolError.message]
  · intro e h1 h2 h3 h4
    rw [FetchFromOrigin]
    simp [h1, h2, h3, h4]
  · rw [FetchFromOrigin]
    cases h1 : (env .fetch).exitErr with
    | some e => simp only [h1]; decide
    | none =>
      cases h2 : (env .fsck).exitErr with
      | some e => simp only [h1, h2]; decide
      | none =>
        cases h3 : (env .packRefs).exitErr with
        | some e => simp only [h1, h2, h3]; decide
        | none =>
          cases h4 : (env .repack).exitErr with
          | some e => simp only [h1, h2, h3, h4]; decide
          | none => simp only [h1, h2, h3, h4]; decide

/-- The environment in which the fetch itself fails. -/
def envFetchFail : PoolEnv :=
  fun c =>
    match c with
    | .fetch => { exitErr := some "boom", stderr := "FETCH-STDERR", output := [] }
    | _ => { exitErr := none, stderr := "", output := [] }

/-- C7 witness: the amended theorem applied to a failing fetch — the error
is the wrapped form carrying the captured standard error. -/
theorem claim_C7_witness :
    (FetchFromOrigin envFetchFail).2 =
      .error (.fetchFailed "boom" (envFetchFail .fetch).stderr) ∧
    PoolError.message (.fetchFailed "boom" (envFetchFail .fetch).stderr) =
      "fetch into object pool: " ++ "boom" ++ ", stderr: \"" ++
        (envFetchFail .fetch).stderr ++ "\"" :=
  (claim_C7_error_propagation envFetchFail).1 "boom" rfl

def treeW : GitTree := [("file", .lit "a")]
def commitBase : Commit := { oid := "b0", parents := [], tree := treeW }
def commitOurs : Commit := { oid := "o1", parents := ["b0"], tree := treeW }
def commitTheirs : Commit := { oid := "t1", parents := ["b0"], tree := treeW }
def repoW : Repo := [commitOurs, commitTheirs, commitBase]
def storeW : RepoStore := [("repoW", repoW)]
def cmdW : MergeCommand :=
  { repository := "repoW", authorName := "John Doe", authorMail := "john.doe@example.com",
    authorDate := 1596087950, message := "Merge message", ours := "o1", theirs := "t1",
    committerName := "", committerMail := "", committerDate := 0, squash := false }



theorem filter_not_contains_self (l : List String) :
    l.filter (fun k => !l.contains k) = [] := by
  apply List.filter_eq_nil_iff.mpr
  intro a ha
  simp [ha]

theorem treeGet_cons_self (k0 : String) (c0 : Content) (rest : GitTree) :
    treeGet ((k0, c0) :: rest) k0 = some c0 := by
  simp [treeGet]

theorem treeGet_cons_ne (k0 : String) (c0 : Content) (rest : GitTree)
    (k : String) (h : k0 ≠ k) :
    treeGet ((k0, c0) :: rest) k = treeGet rest k := by
  simp [treeGet, List.find?_cons, h]

theorem treeGet_reconstruct (t : GitTree) :
    (treeKeys t).Nodup →
    (treeKeys t).filterMap (fun k => (treeGet t k).map (fun c => (k, c))) = t := by
  induction t with
  | nil => intro _; rfl
  | cons p rest ih =>
    intro hnodup
    obtain ⟨k0, c0⟩ := p
    have hkeys : treeKeys ((k0, c0) :: rest) = k0 :: treeKeys rest := rfl
    rw [hkeys] at hnodup ⊢
    have hk0 : k0 ∉ treeKeys rest := (List.nodup_cons.mp hnodup).1
    have hrest : (treeKeys rest).Nodup := (List.nodup_cons.mp hnodup).2
    rw [List.filterMap_cons, treeGet_cons_self]
    have hcongr : ∀ k ∈ treeKeys rest,
        (treeGet ((k0, c0) :: rest) k).map (fun c => (k, c)) =
        (treeGet rest k).map (fun c => (k, c)) := by
      intro k hk
      rw [treeGet_cons_ne k0 c0 rest k (fun h => hk0 (h ▸ hk))]
    rw [List.filterMap_congr hcongr, ih hrest]
    rfl

theorem mergeFile_self (g th : Option Content) : mergeFile g g th = .ok th := by
  simp [mergeFile]

theorem unionKeys_self (t : GitTree) : unionKeys t t t = treeKeys t := by
  have h2 : (treeKeys t).filter
      (fun k => !((treeKeys t).contains k || ([] : List String).contains k)) = [] := by
    apply List.filter_eq_nil_iff.mpr
    intro a ha
    simp [ha]
  simp only [unionKeys]
  rw [filter_not_contains_self, h2]
  simp

theorem conflictAt_self (t : GitTree) (k : String) : conflictAt t t t k = false := by
  simp [conflictAt, mergeFile_self, isConflict]

theorem mergedEntry_self (t : GitTree) (k : String) :
    mergedEntry t t t k = (treeGet t k).map (fun c => (k, c)) := by
  rw [mergedEntry, mergeFile_self]
  cases treeGet t k <;> rfl

theorem mergeTrees_self (t : GitTree) (hnodup : (treeKeys t).Nodup) :
    mergeTrees t t t = .ok t := by
  have hconf : (unionKeys t t t).filter (conflictAt t t t) = [] := by
    apply List.filter_eq_nil_iff.mpr
    intro a _
    simp [conflictAt_self]
  have hmap : (unionKeys t t t).filterMap (mergedEntry t t t) = t := by
    rw [unionKeys_self, List.filterMap_congr (fun k _ => mergedEntry_self t k),
      treeGet_reconstruct t hnodup]
  simp only [mergeTrees, hconf, hmap, List.isEmpty_nil, if_true]

/-! ## Claims about the Merge Engine -/

/-- C2: for every `MergeCommand` missing a required field, `Merge` fails
validation with the error naming exactly the first missing field in the
fixed order encoded by `MergeCommand.missingField` (repository, author
name, author mail, message, ours, theirs, then the committer fields when any
is set), and it does so for every repository store — i.e. before any
repository is opened, the result does not depend on the store at all.  A
nonexistent repository path fails with the distinct "could not open
repository" error, checked only after parameter validation succeeds. -/
theorem claim_C2_validation_order :
    (∀ (store : RepoStore) (cmd : MergeCommand) (f : String),
      cmd.missingField = some f →
        Merge store cmd = .error (.invalidParameters f) ∧
        (MergeError.invalidParameters f).message =
          "merge: invalid parameters: missing " ++ f) ∧
    (∀ (store : RepoStore) (cmd : MergeCommand),
      cmd.missingField = none → store.open cmd.repository = none →
        Merge store cmd = .error .couldNotOpenRepository ∧
        MergeError.message .couldNotOpenRepository =
          "merge: could not open repository") := by
  constructor
  · intro store cmd f h
    exact ⟨by simp only [Merge, h], rfl⟩
  · intro store cmd h1 h2
    exact ⟨by simp only [Merge, h1, h2], rfl⟩

/-- The base of the validation-test commands: all mandatory fields set. -/
def cmdFoo : MergeCommand :=
  { repository := "repoW", authorName := "Foo", authorMail := "foo@example.com",
    authorDate := 0, message := "Foo", ours := "HEAD", theirs := "HEAD",
    committerName := "", committerMail := "", committerDate := 0, squash := false }

/-- C2 witness: the theorem applied to the request table of
`TestMerge_missingArguments` (each request missing one field, in both
committer variants) and to `TestMerge_invalidRepositoryPath`. -/
theorem claim_C2_witness :
    Merge storeW MergeCommand.empty = .error (.invalidParameters "repository") ∧
    Merge storeW { cmdFoo with repository := "" } = .error (.invalidParameters "repository") ∧
    Merge storeW { cmdFoo with authorName := "" } = .error (.invalidParameters "author name") ∧
    Merge storeW { cmdFoo with authorMail := "" } = .error (.invalidParameters "author mail") ∧
    Merge storeW { cmdFoo with message := "" } = .error (.invalidParameters "message") ∧
    Merge storeW { cmdFoo with ours := "" } = .error (.invalidParameters "ours") ∧
    Merge storeW { cmdFoo with theirs := "" } = .error (.invalidParameters "theirs") ∧
    Merge storeW { cmdFoo with committerName := "Bar" } = .error (.invalidParameters "committer mail") ∧
    Merge storeW { cmdFoo with committerMail := "bar@example.com" } = .error (.invalidParameters "committer name") ∧
    Merge storeW { cmdFoo with committerName := "Bar", committerMail := "bar@example.com" } = .error (.invalidParameters "committer date") ∧
    Merge storeW { cmdFoo with repository := "/does/not/exist" } = .error .couldNotOpenRepository :=
  ⟨(claim_C2_validation_order.1 storeW MergeCommand.empty "repository" rfl).1,
   (claim_C2_validation_order.1 storeW { cmdFoo with repository := "" } "repository" rfl).1,
   (claim_C2_validation_order.1 storeW { cmdFoo with authorName := "" } "author name" rfl).1,
   (claim_C2_validation_order.1 storeW { cmdFoo with authorMail := "" } "author mail" rfl).1,
   (claim_C2_validation_order.1 storeW { cmdFoo with message := "" } "message" rfl).1,
   (claim_C2_validation_order.1 storeW { cmdFoo with ours := "" } "ours" rfl).1,
   (claim_C2_validation_order.1 storeW { cmdFoo with theirs := "" } "theirs" rfl).1,
   (claim_C2_validation_order.1 storeW { cmdFoo with committerName := "Bar" } "committer mail" rfl).1,
   (claim_C2_validation_order.1 storeW { cmdFoo with committerMail := "bar@example.com" } "committer name" rfl).1,
   (claim_C2_validation_order.1 storeW { cmdFoo with committerName := "Bar", committerMail := "bar@example.com" } "committer date" rfl).1,
   (claim_C2_validation_order.2 storeW { cmdFoo with repository := "/does/not/exist" } rfl rfl).1⟩

/-- C8: whenever `Merge` succeeds, the produced commit has exactly the
parents `[ours]` in squash mode — discarding `theirs` from history while the
tree keeps its content changes — and exactly `[ours, theirs]`, in that
order, otherwise. -/
theorem claim_C8_parents (store : RepoStore) (cmd : MergeCommand)
    (repo : Repo) (oc tc : Commit) (nc : NewCommit)
    (hrepo : store.open cmd.repository = some repo)
    (hours : repo.resolve cmd.ours = some oc)
    (htheirs : repo.resolve cmd.theirs = some tc)
    (hok : Merge store cmd = .ok nc) :
    nc.parents = if cmd.squash then [oc.oid] else [oc.oid, tc.oid] := by
  cases hmf : cmd.missingField with
  | some f =>
    simp only [Merge, hmf] at hok
    exact Except.noConfusion hok
  | none =>
    simp only [Merge, hmf, hrepo, hours, htheirs] at hok
    cases hb : (repo.mergeBase oc.oid tc.oid).bind repo.resolve with
    | none =>
      rw [hb] at hok
      exact Except.noConfusion hok
    | some bc =>
      rw [hb] at hok
      dsimp only at hok
      cases hm : mergeTrees bc.tree oc.tree tc.tree with
      | error fs =>
        rw [hm] at hok
        exact Except.noConfusion hok
      | ok t =>
        rw [hm] at hok
        have hnc : mergedCommitOf cmd oc.oid tc.oid t = nc := by
          injection hok
        rw [← hnc, mergedCommitOf]

def cmdWSquash : MergeCommand := { cmdW with squash := true }

/-- C8 witness: the theorem applied to a concrete store in both modes — the
non-squash merge has parents `["o1", "t1"]` in that order, the squash merge
exactly `["o1"]`. -/
theorem claim_C8_witness :
    (mergedCommitOf cmdW "o1" "t1" treeW).parents = ["o1", "t1"] ∧
    (mergedCommitOf cmdWSquash "o1" "t1" treeW).parents = ["o1"] :=
  ⟨claim_C8_parents storeW cmdW repoW commitOurs commitTheirs
      (mergedCommitOf cmdW "o1" "t1" treeW) rfl rfl rfl rfl,
   claim_C8_parents storeW cmdWSquash repoW commitOurs commitTheirs
      (mergedCommitOf cmdWSquash "o1" "t1" treeW) rfl rfl rfl rfl⟩

/-- C9: for every valid `MergeCommand` whose `ours`, `theirs` and
engine-chosen base revisions all carry the identical tree `t` (well-formed:
no duplicate paths), the merge reports no conflict and succeeds with a
commit whose tree is exactly `t`, and the result — hence the commit object
id `NewCommit.oid` — is the function `mergedCommitOf` of the command's
identities, timestamps, message and squash flag, the two revision ids and
`t` alone: any second run agreeing on those (even against a different store
value) returns the identical result. -/
theorem claim_C9_trivial_merge (store : RepoStore) (cmd : MergeCommand)
    (repo : Repo) (oc tc bc : Commit) (t : GitTree)
    (hmf : cmd.missingField = none)
    (hrepo : store.open cmd.repository = some repo)
    (hours : repo.resolve cmd.ours = some oc)
    (htheirs : repo.resolve cmd.theirs = some tc)
    (hbase : (repo.mergeBase oc.oid tc.oid).bind repo.resolve = some bc)
    (ht1 : oc.tree = t) (ht2 : tc.tree = t) (ht3 : bc.tree = t)
    (hnodup : (treeKeys t).Nodup) :
    Merge store cmd = .ok (mergedCommitOf cmd oc.oid tc.oid t) ∧
    (mergedCommitOf cmd oc.oid tc.oid t).tree = t ∧
    ∀ (store2 : RepoStore) (repo2 : Repo) (oc2 tc2 bc2 : Commit),
      store2.open cmd.repository = some repo2 →
      repo2.resolve cmd.ours = some oc2 →
      repo2.resolve cmd.theirs = some tc2 →
      (repo2.mergeBase oc2.oid tc2.oid).bind repo2.resolve = some bc2 →
      oc2.oid = oc.oid → tc2.oid = tc.oid →
      oc2.tree = t → tc2.tree = t → bc2.tree = t →
      Merge store2 cmd = Merge store cmd := by
  have hmain : ∀ (s : RepoStore) (r : Repo) (oc' tc' bc' : Commit),
      RepoStore.open s cmd.repository = some r →
      r.resolve cmd.ours = some oc' →
      r.resolve cmd.theirs = some tc' →
      (r.mergeBase oc'.oid tc'.oid).bind r.resolve = some bc' →
      oc'.tree = t → tc'.tree = t → bc'.tree = t →
      Merge s cmd = .ok (mergedCommitOf cmd oc'.oid tc'.oid t) := by
    intro s r oc' tc' bc' h1 h2 h3 h4 e1 e2 e3
    simp only [Merge, hmf, h1, h2, h3, h4, e1, e2, e3, mergeTrees_self t hnodup]
  refine ⟨hmain store repo oc tc bc hrepo hours htheirs hbase ht1 ht2 ht3, rfl, ?_⟩
  intro store2 repo2 oc2 tc2 bc2 h1 h2 h3 h4 ho hti e1 e2 e3
  rw [hmain store2 repo2 oc2 tc2 bc2 h1 h2 h3 h4 e1 e2 e3,
    hmain store repo oc tc bc hrepo hours htheirs hbase ht1 ht2 ht3, ho, hti]

/-- C9 witness: the theorem applied to the concrete store in which base,
ours and theirs all carry the tree `treeW`: the merge succeeds and the
commit's tree equals `treeW`. -/
theorem claim_C9_witness :
    Merge storeW cmdW = .ok (mergedCommitOf cmdW "o1" "t1" treeW) ∧
    (mergedCommitOf cmdW "o1" "t1" treeW).tree = treeW :=
  ⟨(claim_C9_trivial_merge storeW cmdW repoW commitOurs commitTheirs commitBase treeW
      rfl rfl rfl rfl rfl rfl rfl rfl (by decide)).1,
   (claim_C9_trivial_merge storeW cmdW repoW commitOurs commitTheirs commitBase treeW
      rfl rfl rfl rfl rfl rfl rfl rfl (by decide)).2.1⟩

theorem tagged_ne (tg : String) (i j : Nat) (h : i ≠ j) :
    (some (Content.tagged tg i) : Option Content) ≠ some (Content.tagged tg j) := by
  intro hc
  have h2 := Option.some.inj hc
  injection h2 with h3 h4
  exact h h4

theorem mergeFile_unchanged_theirs (b o : Option Content) (h1 : o ≠ b) :
    mergeFile b o b = .ok o := by
  rw [mergeFile, if_neg h1, if_pos rfl]

theorem mergeFile_conflict (b o th : Option Content)
    (h1 : o ≠ b) (h2 : th ≠ b) (h3 : o ≠ th) :
    mergeFile b o th = .error () := by
  rw [mergeFile, if_neg h1, if_neg h2, if_neg h3]

theorem ccPick_conflict (m : Nat) :
    mergeTrees (ccOursTree (m + 1)) (ccOursTree (m + 2)) (ccTheirsTree (m + 2)) =
      .error ["theirs"] := by
  have hks : unionKeys (ccOursTree (m + 1)) (ccOursTree (m + 2)) (ccTheirsTree (m + 2)) =
      ["base", "ours", "theirs"] := rfl
  have hcb : conflictAt (ccOursTree (m + 1)) (ccOursTree (m + 2)) (ccTheirsTree (m + 2))
      "base" = false := rfl
  have hco : conflictAt (ccOursTree (m + 1)) (ccOursTree (m + 2)) (ccTheirsTree (m + 2))
      "ours" = false := by
    unfold conflictAt
    rw [show treeGet (ccOursTree (m + 1)) "ours" = some (Content.tagged "ours" (m + 1)) from rfl,
      show treeGet (ccOursTree (m + 2)) "ours" = some (Content.tagged "ours" (m + 2)) from rfl,
      show treeGet (ccTheirsTree (m + 2)) "ours" = some (Content.tagged "ours" (m + 1)) from rfl,
      mergeFile_unchanged_theirs _ _ (tagged_ne "ours" (m + 2) (m + 1) (by omega))]
    rfl
  have hct : conflictAt (ccOursTree (m + 1)) (ccOursTree (m + 2)) (ccTheirsTree (m + 2))
      "theirs" = true := by
    unfold conflictAt
    rw [show treeGet (ccOursTree (m + 1)) "theirs" = some (Content.tagged "theirs" m) from rfl,
      show treeGet (ccOursTree (m + 2)) "theirs" = some (Content.tagged "theirs" (m + 1)) from rfl,
      show treeGet (ccTheirsTree (m + 2)) "theirs" = some (Content.tagged "theirs" (m + 2)) from rfl,
      mergeFile_conflict _ _ _ (tagged_ne "theirs" (m + 1) m (by omega))
        (tagged_ne "theirs" (m + 2) m (by omega))
        (tagged_ne "theirs" (m + 1) (m + 2) (by omega))]
    rfl
  have hconfl : (["base", "ours", "theirs"]).filter
      (conflictAt (ccOursTree (m + 1)) (ccOursTree (m + 2)) (ccTheirsTree (m + 2))) =
      ["theirs"] := by
    simp [List.filter, hcb, hco, hct]
  simp only [mergeTrees, hks, hconfl]
  rfl

theorem ccMergeAt_pick (n r : Nat) (h : MergeRecursionLimit < r + 2) :
    ccMergeAt MergeRecursionLimit (n + 1) r = .error ["theirs"] := by
  rw [ccMergeAt, if_neg (by omega)]
  cases n with
  | zero => rfl
  | succ m => exact ccPick_conflict m

theorem ccMergeAt_deep_conflict (n : Nat) :
    ∀ r : Nat, MergeRecursionLimit < 2 * (n + 1) + r →
      ccMergeAt MergeRecursionLimit (n + 1) r = .error ["theirs"] := by
  induction n with
  | zero =>
    intro r h
    exact ccMergeAt_pick 0 r (by omega)
  | succ m ih =>
    intro r h
    by_cases hr : r + 2 ≤ MergeRecursionLimit
    · rw [ccMergeAt, if_pos hr, ih (r + 2) (by omega)]
    · exact ccMergeAt_pick (m + 1) r (by omega)

/-- C3: for the criss-cross history family of `TestMerge_recursive`, a merge
whose criss-cross depth exceeds the recursion limit (each round of the
history costs two recursion levels, so depth `n` with `2 * n >` limit)
terminates — `ccMergeAt` is a total function — and returns the merge
conflict on the file `"theirs"`, because the engine picks one merge base
arbitrarily instead of computing further virtual bases; while the
equivalent history of depth `MergeRecursionLimit / 2 = 10`, which exactly
hits the limit, succeeds and returns the expected merged tree. -/
theorem claim_C3_recursion_limit :
    (∀ n : Nat, MergeRecursionLimit < 2 * n → ccMerge n = .error ["theirs"]) ∧
    ccMerge (MergeRecursionLimit / 2) =
      .ok [("base", Content.lit "base\n"), ("ours", Content.tagged "ours" 10),
           ("theirs", Content.tagged "theirs" 10)] := by
  constructor
  · intro n h
    cases n with
    | zero => omega
    | succ m => exact ccMergeAt_deep_conflict m 0 (by omega)
  · rfl

/-- C3 witness: the merge of the depth-19 criss-cross heads — the pair the
test merges after building `MergeRecursionLimit` rounds — conflicts on
exactly the file `"theirs"`. -/
theorem claim_C3_witness : ccMerge 19 = .error ["theirs"] :=
  claim_C3_recursion_limit.1 19 (by decide)
